import Mathlib

set_option maxRecDepth 20000

/-!
Shallow embedding of the lkpg-rs news scraping pipeline
(`src/utils.py`, `src/pipeline.py`, `src/api.py`).

External collaborators are modelled at their interface boundary:
* `BeautifulSoup` documents are `Node` trees (tags with attributes and
  children, plus entity-decoded text nodes); `get_text`, `find`, `find_all`
  and the CSS anchor selection are implemented over this tree.
* parsing a raw string with `BeautifulSoup(s, "html.parser")` followed by
  `get_text(" ")` (as done inside `clean_text`) is modelled by a character
  scanner that drops `<...>` markup and decodes the basic named character
  references, joining the text chunks between tags with single spaces;
* `hashlib.md5(...).hexdigest()` is an arbitrary function argument `md5hex`;
* HTTP fetching of a detail page is a function `String → Option Node`
  (`none` models a request/HTTP error being raised);
* `datetime(y, m, d)` and `datetime.fromisoformat` are validity-checked
  constructors returning `Option` (`none` models `ValueError`);
* OpenAI embeddings are an arbitrary function `String → List Rat`.
-/

/-! ## Whitespace and Python string primitives (src/utils.py) -/

/-- The characters Python's regex `\s` and `str.strip()` treat as whitespace
(ASCII range). -/
def isPySpace (c : Char) : Bool :=
  c = ' ' || c = '\t' || c = '\n' || c = '\r' || c = '\x0b' || c = '\x0c'

/-- One pass of `re.sub(r"\s+", " ", text)`: each maximal whitespace run is
replaced by a single space.  The flag records whether the previous character
belonged to a run that has already emitted its space. -/
def collapseWsAux : List Char → Bool → List Char
  | [], _ => []
  | c :: rest, prevWs =>
    if isPySpace c then
      if prevWs then collapseWsAux rest true else ' ' :: collapseWsAux rest true
    else c :: collapseWsAux rest false

/-- Remove trailing whitespace (the right half of `str.strip()`). -/
def dropTrailingWs (l : List Char) : List Char :=
  l.foldr (fun c acc => if acc.isEmpty && isPySpace c then [] else c :: acc) []

/-- Python `str.strip()` on a character list. -/
def stripList (l : List Char) : List Char :=
  dropTrailingWs (l.dropWhile isPySpace)

/-- Python `str.strip()`. -/
def pyStrip (s : String) : String := String.mk (stripList s.data)

/-- `normalize_whitespace` from src/utils.py:
`re.sub(r"\s+", " ", text).strip()`. -/
def normalize_whitespace (s : String) : String :=
  String.mk (stripList (collapseWsAux s.data false))

/-- Text extraction of `BeautifulSoup(s, "html.parser").get_text(" ")` applied
to a raw string: a `<` followed by a letter, `/`, `!` or `?` opens markup that
runs to the next `>`; the basic named character references (`&amp;` `&lt;`
`&gt;` `&quot;` `&apos;`) are decoded; the text chunks between markup are the
document's strings.  The accumulator `cur` holds the current chunk reversed;
the flag is true while inside markup. -/
def bsChunksAux : List Char → Bool → List Char → List (List Char)
  | [], _, cur => if cur.isEmpty then [] else [cur.reverse]
  | c :: rest, true, cur =>
    if c = '>' then bsChunksAux rest false cur else bsChunksAux rest true cur
  | ['<'], false, cur => [('<' :: cur).reverse]
  | '<' :: d :: rest2, false, cur =>
    if d.isAlpha || d = '/' || d = '!' || d = '?' then
      (if cur.isEmpty then [] else [cur.reverse]) ++ bsChunksAux (d :: rest2) true []
    else bsChunksAux (d :: rest2) false ('<' :: cur)
  | '&' :: 'a' :: 'm' :: 'p' :: ';' :: after, false, cur => bsChunksAux after false ('&' :: cur)
  | '&' :: 'l' :: 't' :: ';' :: after, false, cur => bsChunksAux after false ('<' :: cur)
  | '&' :: 'g' :: 't' :: ';' :: after, false, cur => bsChunksAux after false ('>' :: cur)
  | '&' :: 'q' :: 'u' :: 'o' :: 't' :: ';' :: after, false, cur =>
    bsChunksAux after false ('"' :: cur)
  | '&' :: 'a' :: 'p' :: 'o' :: 's' :: ';' :: after, false, cur =>
    bsChunksAux after false ('\'' :: cur)
  | c :: rest, false, cur => bsChunksAux rest false (c :: cur)

/-- Python `" ".join(...)`: concatenate with a single-space separator between
the entries. -/
def joinSepSp : List String → String
  | [] => ""
  | [s] => s
  | s :: rest => s ++ " " ++ joinSepSp rest

/-- `BeautifulSoup(s, "html.parser").get_text(" ")` on a raw string. -/
def bsGetText (s : String) : String :=
  joinSepSp ((bsChunksAux s.data false []).map String.mk)

/-- `clean_text` from src/utils.py: re-parse as HTML, take the text joined by
single spaces, collapse whitespace and strip. -/
def clean_text (s : String) : String := normalize_whitespace (bsGetText s)

/-! ## Date normalisation (src/utils.py) -/

def charVal (c : Char) : Nat := c.toNat - 48

/-- Value of a decimal digit string, as Python `int()` on the regex groups. -/
def natOfDigits (l : List Char) : Nat := l.foldl (fun acc c => 10 * acc + charVal c) 0

def isLeapYear (y : Nat) : Bool := y % 4 = 0 && (y % 100 != 0 || y % 400 = 0)

def daysInMonth (y m : Nat) : Nat :=
  if m = 2 then (if isLeapYear y then 29 else 28)
  else if m = 4 || m = 6 || m = 9 || m = 11 then 30 else 31

/-- The validity condition checked by `datetime(year, month, day)`
(`MINYEAR = 1`, `MAXYEAR = 9999`); `false` models `ValueError`. -/
def isValidYMD (y m d : Nat) : Bool :=
  1 ≤ y && y ≤ 9999 && 1 ≤ m && m ≤ 12 && 1 ≤ d && d ≤ daysInMonth y m

structure PyDate where
  year : Nat
  month : Nat
  day : Nat
deriving DecidableEq

/-- `date.isoformat()` digit helpers: zero-padded decimal rendering. -/
def pad2 (n : Nat) : List Char := [Nat.digitChar (n / 10 % 10), Nat.digitChar (n % 10)]

def pad4 (n : Nat) : List Char :=
  [Nat.digitChar (n / 1000 % 10), Nat.digitChar (n / 100 % 10),
   Nat.digitChar (n / 10 % 10), Nat.digitChar (n % 10)]

/-- `dt.date().isoformat()`: `YYYY-MM-DD`, zero padded. -/
def dateIsoformat (d : PyDate) : String :=
  String.mk (pad4 d.year ++ '-' :: (pad2 d.month ++ '-' :: pad2 d.day))

/-- `datetime.fromisoformat` on the `YYYY-MM-DD` strings produced by the regex
group in `try_parse_iso`: parse the three fields and validate the calendar
date; `none` models `ValueError`. -/
def fromisoformat (s : String) : Option PyDate :=
  match s.data with
  | [a, b, c, d, dash1, e, f, dash2, g, h] =>
    if a.isDigit && b.isDigit && c.isDigit && d.isDigit && dash1 = '-' &&
       e.isDigit && f.isDigit && dash2 = '-' && g.isDigit && h.isDigit then
      let y := natOfDigits [a, b, c, d]
      let mo := natOfDigits [e, f]
      let da := natOfDigits [g, h]
      if isValidYMD y mo da then some ⟨y, mo, da⟩ else none
    else none
  | _ => none

/-- Character `k` of `l` is a decimal digit. -/
def digitAt (l : List Char) (k : Nat) : Bool :=
  match l[k]? with
  | some c => c.isDigit
  | none => false

/-- Character `k` of `l` equals `c`. -/
def charEqAt (l : List Char) (k : Nat) (c : Char) : Bool := l[k]? == some c

/-- `\d{4}-\d{2}-\d{2}` matches at the head of `l`. -/
def isoOkAt (l : List Char) : Bool :=
  digitAt l 0 && digitAt l 1 && digitAt l 2 && digitAt l 3 && charEqAt l 4 '-' &&
  digitAt l 5 && digitAt l 6 && charEqAt l 7 '-' && digitAt l 8 && digitAt l 9

/-- Match attempt for `(\d{4}-\d{2}-\d{2})` at the current position. -/
def isoMatchAt (l : List Char) : Option (List Char) :=
  if isoOkAt l then some (l.take 10) else none

/-- `(\d{4}-\d{2}-\d{2})T\d{2}:\d{2}` matches at the head of `l`. -/
def isoTOkAt (l : List Char) : Bool :=
  isoOkAt l && charEqAt l 10 'T' && digitAt l 11 && digitAt l 12 &&
  charEqAt l 13 ':' && digitAt l 14 && digitAt l 15

/-- Match attempt for the second regex; group 1 is the first 10 characters. -/
def isoTMatchAt (l : List Char) : Option (List Char) :=
  if isoTOkAt l then some (l.take 10) else none

/-- `re.search` leftmost-match semantics: try the match at each position from
the left, first success wins. -/
def reSearch {α : Type} (m : List Char → Option α) : List Char → Option α
  | [] => m []
  | l@(_ :: t) =>
    match m l with
    | some r => some r
    | none => reSearch m t

/-- One regex block of `try_parse_iso`: if the search matched, parse group 1
with `fromisoformat` (the `ValueError` of an invalid date is caught by the
`except` and falls through to `None`) and return `dt.date().isoformat()`. -/
def isoGroupToDate (o : Option (List Char)) : Option String :=
  match o with
  | some g =>
    match fromisoformat (String.mk g) with
    | some d => some (dateIsoformat d)
    | none => none
  | none => none

/-- `try_parse_iso` from src/utils.py: strip, search for an embedded
`YYYY-MM-DD`; if that block produced nothing, search for
`YYYY-MM-DDTHH:MM`. -/
def try_parse_iso (date_text : String) : Option String :=
  let t := pyStrip date_text
  match isoGroupToDate (reSearch isoMatchAt t.data) with
  | some x => some x
  | none => isoGroupToDate (reSearch isoTMatchAt t.data)

def SWEDISH_MONTHS : List (String × Nat) :=
  [("januari", 1), ("februari", 2), ("mars", 3), ("april", 4), ("maj", 5), ("juni", 6),
   ("juli", 7), ("augusti", 8), ("september", 9), ("oktober", 10), ("november", 11),
   ("december", 12)]

def isSwLetter (c : Char) : Bool := ('a' ≤ c && c ≤ 'z') || c = 'å' || c = 'ä' || c = 'ö'

/-- Python `str.lower()` (ASCII letters and the three Swedish letters). -/
def pyLower (s : String) : String :=
  String.mk (s.data.map (fun c =>
    if 'A' ≤ c && c ≤ 'Z' then Char.ofNat (c.toNat + 32)
    else if c = 'Å' then 'å' else if c = 'Ä' then 'ä' else if c = 'Ö' then 'ö' else c))

/-- Match attempt for `(\d{1,2})\s+([a-zåäö]+)\s+(\d{4})` at the current
position, returning the three groups.  Each class is disjoint from the next,
so the greedy quantifiers never backtrack: a run of three or more digits can
never start a match. -/
def swMatchAt (l : List Char) : Option (List Char × List Char × List Char) :=
  let ds := l.takeWhile Char.isDigit
  if ds.length = 0 || 2 < ds.length then none
  else
    let r1 := l.drop ds.length
    let w1 := r1.takeWhile isPySpace
    if w1.length = 0 then none
    else
      let r2 := r1.drop w1.length
      let ms := r2.takeWhile isSwLetter
      if ms.length = 0 then none
      else
        let r3 := r2.drop ms.length
        let w2 := r3.takeWhile isPySpace
        if w2.length = 0 then none
        else
          let r4 := r3.drop w2.length
          if digitAt r4 0 && digitAt r4 1 && digitAt r4 2 && digitAt r4 3 then
            some (ds, ms, r4.take 4)
          else none

/-- `try_parse_swedish` from src/utils.py: lower-case, search for
`day month-name year`, look the month up in `SWEDISH_MONTHS`, build the
`datetime` (`ValueError` for an invalid calendar date is caught → `None`). -/
def try_parse_swedish (date_text : String) : Option String :=
  let lower := pyLower date_text
  match reSearch swMatchAt lower.data with
  | none => none
  | some (ds, ms, ys) =>
    match SWEDISH_MONTHS.lookup (String.mk ms) with
    | none => none
    | some month =>
      if isValidYMD (natOfDigits ys) month (natOfDigits ds) then
        some (dateIsoformat ⟨natOfDigits ys, month, natOfDigits ds⟩)
      else none

/-- The `if iso: return iso` step of the strategy loop in `normalize_date`
applied to `try_parse_swedish` (a falsy result falls through). -/
def trySwedishTruthy (s : String) : Option String :=
  match try_parse_swedish s with
  | some iso => if iso = "" then none else some iso
  | none => none

/-- `normalize_date` from src/utils.py: falsy input → `None`; otherwise the
first truthy result of `try_parse_iso`, `try_parse_swedish`; else `None`. -/
def normalize_date (date_text : String) : Option String :=
  if date_text = "" then none
  else
    match try_parse_iso date_text with
    | some iso => if iso = "" then trySwedishTruthy date_text else some iso
    | none => trySwedishTruthy date_text

/-! ## The document model (BeautifulSoup trees) -/

/-- A parsed HTML document: element tags with attributes and children, and
text nodes (strings are already entity-decoded by the parse). -/
inductive Node where
  | element (tag : String) (attrs : List (String × String)) (children : List Node)
  | text (s : String)

def Node.tagName : Node → String
  | .element t _ _ => t
  | .text _ => ""

def Node.isElem : Node → Bool
  | .element _ _ _ => true
  | .text _ => false

/-- `tag.get(key)`: attribute lookup. -/
def getAttr : Node → String → Option String
  | .element _ attrs _, k => attrs.lookup k
  | .text _, _ => none

mutual
/-- All strings of the subtree, in document order (`tag.strings`). -/
def getTextList : Node → List String
  | .text s => [s]
  | .element _ _ cs => getTextListL cs
def getTextListL : List Node → List String
  | [] => []
  | c :: cs => getTextList c ++ getTextListL cs
end

/-- `tag.get_text(" ")`: the subtree's strings joined with single spaces. -/
def getText (n : Node) : String := joinSepSp (getTextList n)

mutual
/-- `tag.find(...)` over the descendants of a node: first element in
document order (pre-order) whose tag satisfies `p`. -/
def findFirstP (p : String → Bool) : Node → Option Node
  | .text _ => none
  | .element _ _ cs => findFirstPL p cs
def findFirstPL (p : String → Bool) : List Node → Option Node
  | [] => none
  | c :: cs =>
    if c.isElem && p c.tagName then some c
    else
      match findFirstP p c with
      | some r => some r
      | none => findFirstPL p cs
end

mutual
/-- `tag.find_all(...)` over the descendants of a node, in document order. -/
def findAllP (p : String → Bool) : Node → List Node
  | .text _ => []
  | .element _ _ cs => findAllPL p cs
def findAllPL (p : String → Bool) : List Node → List Node
  | [] => []
  | c :: cs =>
    (if c.isElem && p c.tagName then [c] else []) ++ findAllP p c ++ findAllPL p cs
end

/-- String prefix test (`str.startswith`). -/
def strStarts (s pre : String) : Bool :=
  go s.data pre.data
where
  go : List Char → List Char → Bool
  | _, [] => true
  | [], _ :: _ => false
  | a :: as, b :: bs => a == b && go as bs

/-- The CSS selector
`a[href^="/nyheter/"], a[href^="https://www.linkoping.se/nyheter/"]`
applied to one element. -/
def isNewsAnchor (n : Node) : Bool :=
  n.tagName = "a" &&
  (match getAttr n "href" with
   | some h => strStarts h "/nyheter/" || strStarts h "https://www.linkoping.se/nyheter/"
   | none => false)

mutual
/-- `soup.select(...)` for the news-anchor selector: all matching elements in
document order, each paired with its ancestor chain (nearest first). -/
def collectAnchors : Node → List Node → List (Node × List Node)
  | .text _, _ => []
  | .element t a cs, anc =>
    (if isNewsAnchor (.element t a cs) then [(Node.element t a cs, anc)] else []) ++
      collectAnchorsL cs (Node.element t a cs :: anc)
def collectAnchorsL : List Node → List Node → List (Node × List Node)
  | [], _ => []
  | c :: cs, anc => collectAnchors c anc ++ collectAnchorsL cs anc
end

/-! ## The pipeline (src/pipeline.py) -/

/-- `absolute_url` from src/pipeline.py. -/
def absolute_url (href : String) : String :=
  if strStarts href "http" then href else "https://www.linkoping.se" ++ href

def isContainerTag (t : String) : Bool := t = "article" || t = "li" || t = "div"

def isHeadingTag (t : String) : Bool := t = "h1" || t = "h2" || t = "h3"

/-- The container-search loop in `extract_main_items`: climb at most 3 parents
(`for _ in range(3)`), stopping early at the first `article`/`li`/`div`
ancestor or when there is no parent. -/
def containerWalk : Node → List Node → Nat → Node
  | cur, _, 0 => cur
  | cur, [], _ + 1 => cur
  | _, p :: rest, fuel + 1 =>
    if isContainerTag p.tagName then p else containerWalk p rest fuel

/-- Python `a or b` on strings: `b` if `a` is empty. -/
def pyOrStr (a b : String) : String := if a = "" then b else a

/-- Python `a or b` where `a` is an optional string (`None` and `""` are both
falsy). -/
def pyOrStrOpt (o : Option String) (b : String) : String :=
  match o with
  | some s => if s = "" then b else s
  | none => b

structure Item where
  title : String
  date_raw : String
  url : String
deriving DecidableEq

/-- The title heuristic of `extract_main_items`: prefer the first `h1`–`h3`
inside the container, else the anchor's own text; clean and strip. -/
def titleOf (a container : Node) : String :=
  pyStrip (match findFirstP isHeadingTag container with
    | some titleEl => clean_text (getText titleEl)
    | none => clean_text (getText a))

/-- The date heuristic of `extract_main_items`: prefer a `time` element's
`datetime` attribute (falling back to its text), else the container's
cleaned text. -/
def dateRawOf (container : Node) : String :=
  let dt :=
    match findFirstP (fun t => t = "time") container with
    | some timeEl => pyOrStrOpt (getAttr timeEl "datetime") (getText timeEl)
    | none => ""
  if dt = "" then clean_text (getText container) else dt

/-- The per-anchor loop of `extract_main_items`: `seen` is the set of already
kept URLs, `cur` the number of items collected so far.  The anchor is skipped
when the href is missing or empty, the URL was seen, or the cleaned title is
empty; collection stops once `max_items` items have been appended. -/
def extractLoop : List (Node × List Node) → List String → Nat → Nat → List Item
  | [], _, _, _ => []
  | (a, anc) :: rest, seen, cur, maxItems =>
    match getAttr a "href" with
    | none => extractLoop rest seen cur maxItems
    | some href =>
      if href = "" then extractLoop rest seen cur maxItems
      else
        let url := absolute_url href
        if url ∈ seen then extractLoop rest seen cur maxItems
        else
          let container := containerWalk a anc 3
          let title_text := titleOf a container
          if title_text = "" then extractLoop rest seen cur maxItems
          else
            let it : Item := ⟨title_text, dateRawOf container, url⟩
            if maxItems ≤ cur + 1 then [it]
            else it :: extractLoop rest (url :: seen) (cur + 1) maxItems

/-- `extract_main_items` from src/pipeline.py. -/
def extract_main_items (soup : Node) (max_items : Nat) : List Item :=
  extractLoop (collectAnchors soup []) [] 0 max_items

/-- `" ".join(paragraphs)` in `extract_detail_content`. -/
def joinSp (l : List String) : String := joinSepSp l

/-- The shared region rule of `extract_detail_content`: paragraph texts joined
with spaces, or — when that joined string is empty — the region's whole text,
then cleaned. -/
def regionContent (region : Node) : String :=
  let paragraphs := (findAllP (fun t => t = "p") region).map (fun p => getText p)
  clean_text (pyOrStr (joinSp paragraphs) (getText region))

/-- `extract_detail_content` from src/pipeline.py: prefer the first `article`,
else the first `main`, else the whole document, under the shared region
rule. -/
def extract_detail_content (soup : Node) : String :=
  match findFirstP (fun t => t = "article") soup with
  | some art => regionContent art
  | none =>
    match findFirstP (fun t => t = "main") soup with
    | some mainEl => regionContent mainEl
    | none => regionContent soup

structure Article where
  id : String
  title : String
  date : String
  url : String
  content : String
deriving DecidableEq

/-- `scrape` from src/pipeline.py, parameterised by the external
collaborators: `md5hex` models `hashlib.md5(url.encode()).hexdigest()`;
`fetch` models fetching and parsing one detail page, `none` meaning the
request raised (the `except` branch sets `content = ""`). -/
def scrape (md5hex : String → String) (fetch : String → Option Node)
    (listing : Node) : List Article :=
  (extract_main_items listing 5).map (fun item =>
    let content :=
      match fetch item.url with
      | some doc => extract_detail_content doc
      | none => ""
    { id := md5hex item.url
      title := pyOrStr item.title ""
      date := pyOrStrOpt (normalize_date (pyOrStr item.date_raw "")) ""
      url := item.url
      content := content })

/-! ## Upsert and search (src/pipeline.py, src/api.py) -/

structure UpsertVector where
  id : String
  values : List Rat
  metadata : List (String × String)
deriving DecidableEq

/-- `upsert_to_pinecone` from src/pipeline.py, returning the list of vectors
passed to `index.upsert`; `embed` models one `client.embeddings.create`
call. -/
def upsert_to_pinecone (embed : String → List Rat) (articles : List Article) :
    List UpsertVector :=
  let inputs := articles.map (fun a => a.title ++ "\n\n" ++ a.content)
  let vectors := inputs.map embed
  (articles.zip vectors).map (fun av =>
    { id := av.1.id
      values := av.2
      metadata := [("title", av.1.title), ("date", av.1.date), ("url", av.1.url)] })

structure SearchResult where
  title : String
  date : String
  url : String
  content : String
  score : Rat

/-- `md.get(key, "")` on vector metadata. -/
def metaGet (md : List (String × String)) (k dflt : String) : String :=
  (md.lookup k).getD dflt

/-- The per-match construction in the `/search` handler (src/api.py):
metadata fields default to the empty string, the score to `0.0`. -/
def buildSearchResult (md : List (String × String)) (score : Option Rat) :
    SearchResult :=
  { title := metaGet md "title" ""
    date := metaGet md "date" ""
    url := metaGet md "url" ""
    content := metaGet md "content" ""
    score := score.getD 0 }

/-! ## Spec-side definitions and witness fixtures -/

/-- Spec-side checker for the Article `date` invariant: a non-empty date must
be a well-formed `YYYY-MM-DD` string denoting a valid calendar date (this is
exactly the set of strings `fromisoformat` accepts). -/
def isValidIsoDateString (s : String) : Bool := (fromisoformat s).isSome

def wMkA (href : String) (kids : List Node) : Node := .element "a" [("href", href)] kids

/-- Witness listing document: two news items (one with a heading and a `time`
element, one with a plain-text Swedish date), a duplicate link and a non-news
link. -/
def wListing : Node :=
  .element "[document]" [] [.element "html" [] [
    .element "ul" [] [
      .element "li" [] [
        .element "h2" [] [.text "Rubrik Ett"],
        wMkA "/nyheter/a1" [.text "link1"],
        .element "time" [("datetime", "2024-09-01")] [.text "1 september 2024"]],
      .element "li" [] [
        wMkA "/nyheter/a2" [.text "Andra nyheten"],
        .text "28 augusti 2024"],
      .element "li" [] [
        wMkA "https://www.linkoping.se/nyheter/a1" [.text "dup of a1"]],
      .element "li" [] [
        wMkA "/om-oss/x" [.text "not news"]]
    ]]]

/-- Witness detail page. -/
def wDetail : Node :=
  .element "[document]" [] [.element "html" [] [
    .element "article" [] [
      .element "p" [] [.text "First para."],
      .element "p" [] [.text "Second  para."],
      .element "div" [] [.text "aside text"]]]]

/-- Witness fetch: the first URL fails (models a raised request error), the
second succeeds. -/
def wFetch (u : String) : Option Node :=
  if u = "https://www.linkoping.se/nyheter/a2" then some wDetail else none

/-- Witness stand-in for `hashlib.md5(...).hexdigest()` (the claims hold for
every such function). -/
def wMd5 (s : String) : String := "h:" ++ s


/-- The first record `scrape` produces from the witness fixtures (its detail
fetch fails, so its content is empty). -/
def wRec1 : Article :=
  { id := "h:https://www.linkoping.se/nyheter/a1"
    title := "Rubrik Ett"
    date := "2024-09-01"
    url := "https://www.linkoping.se/nyheter/a1"
    content := "" }

/-- The second record `scrape` produces from the witness fixtures. -/
def wRec2 : Article :=
  { id := "h:https://www.linkoping.se/nyheter/a2"
    title := "Andra nyheten"
    date := "2024-08-28"
    url := "https://www.linkoping.se/nyheter/a2"
    content := "First para. Second para." }

/-- C6 counterexample fixture: a news anchor. -/
def cDeepAnchor : Node := .element "a" [("href", "/nyheter/deep")] [.text "Deep"]

/-- C6 counterexample fixture: three `span` ancestors (no `article`/`li`/`div`
within three levels). -/
def cDeepChain : List Node :=
  [.element "span" [] [], .element "span" [] [], .element "span" [] []]

/-- Whitespace-only string: its cleaned text is empty, i.e. "no extractable
text". -/
def wsOnlyStr (s : String) : Bool := s.data.all isPySpace

mutual
/-- The document has no extractable text: every text node is whitespace-only. -/
def noText : Node → Bool
  | .text s => wsOnlyStr s
  | .element _ _ cs => noTextL cs
def noTextL : List Node → Bool
  | [] => true
  | c :: cs => noText c && noTextL cs
end

/-- The region rule exactly as the C7 claim words it: paragraph texts joined
with spaces whenever the region has any paragraph element, all its text only
when it has none. -/
def regionContentClaimed (region : Node) : String :=
  let paragraphs := (findAllP (fun t => t = "p") region).map (fun p => getText p)
  if paragraphs.isEmpty then clean_text (getText region) else clean_text (joinSp paragraphs)

/-- `extract_detail_content` as the C7 claim describes it. -/
def extract_detail_content_claimed (soup : Node) : String :=
  match findFirstP (fun t => t = "article") soup with
  | some art => regionContentClaimed art
  | none =>
    match findFirstP (fun t => t = "main") soup with
    | some mainEl => regionContentClaimed mainEl
    | none => regionContentClaimed soup

/-- The amended region rule: the region's whole text is used when the JOINED
paragraph text is empty (so also when every paragraph is empty), not merely
when there are no paragraphs. -/
def regionContentAmended (region : Node) : String :=
  let paragraphs := (findAllP (fun t => t = "p") region).map (fun p => getText p)
  if joinSp paragraphs = "" then clean_text (getText region) else clean_text (joinSp paragraphs)

/-- `extract_detail_content` as amended for C7. -/
def extract_detail_content_amended (soup : Node) : String :=
  match findFirstP (fun t => t = "article") soup with
  | some art => regionContentAmended art
  | none =>
    match findFirstP (fun t => t = "main") soup with
    | some mainEl => regionContentAmended mainEl
    | none => regionContentAmended soup

/-- C7 counterexample fixture: an article with one empty paragraph plus loose
text. -/
def cDetailDoc : Node :=
  .element "[document]" [] [.element "article" [] [.element "p" [] [], .text "hello"]]

/-- C7 witness fixture: a document with no extractable text. -/
def cEmptyDoc : Node :=
  .element "[document]" [] [.element "div" [] [.text "  "], .element "p" [] []]

/-- The per-anchor computation of the extraction loop (reference function for
C2): `none` when the anchor is skipped for a missing/empty href or an empty
cleaned title, otherwise the item it contributes. -/
def buildItem (an : Node × List Node) : Option Item :=
  match getAttr an.1 "href" with
  | none => none
  | some href =>
    if href = "" then none
    else
      let url := absolute_url href
      let container := containerWalk an.1 an.2 3
      let title_text := titleOf an.1 container
      if title_text = "" then none
      else some ⟨title_text, dateRawOf container, url⟩

/-- First-occurrence deduplication by URL (URLs in `seen` are dropped). -/
def dedupBySeen : List Item → List String → List Item
  | [], _ => []
  | it :: rest, seen =>
    if it.url ∈ seen then dedupBySeen rest seen
    else it :: dedupBySeen rest (it.url :: seen)

/-- C2 counterexample fixture for the cap: one qualifying anchor,
`max_items = 0`. -/
def cCapDoc : Node := .element "[document]" [] [wMkA "/nyheter/y" [.text "T"]]

/-- C2 counterexample fixture for first-wins: two qualifying anchors with the
same URL; the first has no deriveable title (no headings anywhere, no anchor
text), the second has text `Hello`. -/
def cDupDoc : Node :=
  .element "[document]" [] [.element "html" [] [.element "section" []
    [wMkA "/nyheter/x" [], wMkA "/nyheter/x" [.text "Hello"]]]]

/-- No two consecutive whitespace characters (C5 checker). -/
def noDoubleWsList : List Char → Bool
  | [] => true
  | [_] => true
  | a :: b :: rest => !(isPySpace a && isPySpace b) && noDoubleWsList (b :: rest)

def noDoubleWs (s : String) : Bool := noDoubleWsList s.data

/-- No leading and no trailing whitespace (C5 checker). -/
def noEdgeWs (s : String) : Bool :=
  (match s.data.head? with | some c => !isPySpace c | none => true) &&
  (match s.data.getLast? with | some c => !isPySpace c | none => true)

/-! ## Helper lemmas: digits, rendering and parsing of dates -/

theorem isDigit_toNat {c : Char} (h : c.isDigit = true) :
    48 ≤ c.toNat ∧ c.toNat ≤ 57 := by
  simp [Char.isDigit] at h
  exact h

theorem digitChar_isDigit {k : Nat} (h : k < 10) : (Nat.digitChar k).isDigit = true := by
  interval_cases k <;> decide

theorem charVal_digitChar {k : Nat} (h : k < 10) : charVal (Nat.digitChar k) = k := by
  interval_cases k <;> decide

theorem digitChar_charVal {c : Char} (h : c.isDigit = true) :
    Nat.digitChar (charVal c) = c := by
  obtain ⟨h1, h2⟩ := isDigit_toNat h
  have hc : c = Char.ofNat c.toNat := (Char.ofNat_toNat c).symm
  rw [hc]
  unfold charVal
  set n := c.toNat with hn
  interval_cases n <;> decide

theorem charVal_lt_ten {c : Char} (h : c.isDigit = true) : charVal c < 10 := by
  obtain ⟨h1, h2⟩ := isDigit_toNat h
  unfold charVal
  omega

theorem natOfDigits_two (a b : Char) :
    natOfDigits [a, b] = 10 * charVal a + charVal b := by
  simp [natOfDigits, List.foldl]

theorem natOfDigits_four (a b c d : Char) :
    natOfDigits [a, b, c, d] =
      1000 * charVal a + 100 * charVal b + 10 * charVal c + charVal d := by
  simp [natOfDigits, List.foldl]
  ring

theorem pad2_natOfDigits {a b : Char} (ha : a.isDigit = true) (hb : b.isDigit = true) :
    pad2 (natOfDigits [a, b]) = [a, b] := by
  have h1 := charVal_lt_ten ha
  have h2 := charVal_lt_ten hb
  rw [natOfDigits_two]
  unfold pad2
  have e1 : (10 * charVal a + charVal b) / 10 % 10 = charVal a := by omega
  have e2 : (10 * charVal a + charVal b) % 10 = charVal b := by omega
  rw [e1, e2, digitChar_charVal ha, digitChar_charVal hb]

theorem pad4_natOfDigits {a b c d : Char} (ha : a.isDigit = true) (hb : b.isDigit = true)
    (hc : c.isDigit = true) (hd : d.isDigit = true) :
    pad4 (natOfDigits [a, b, c, d]) = [a, b, c, d] := by
  have h1 := charVal_lt_ten ha
  have h2 := charVal_lt_ten hb
  have h3 := charVal_lt_ten hc
  have h4 := charVal_lt_ten hd
  rw [natOfDigits_four]
  unfold pad4
  have e1 : (1000 * charVal a + 100 * charVal b + 10 * charVal c + charVal d) / 1000 % 10
      = charVal a := by omega
  have e2 : (1000 * charVal a + 100 * charVal b + 10 * charVal c + charVal d) / 100 % 10
      = charVal b := by omega
  have e3 : (1000 * charVal a + 100 * charVal b + 10 * charVal c + charVal d) / 10 % 10
      = charVal c := by omega
  have e4 : (1000 * charVal a + 100 * charVal b + 10 * charVal c + charVal d) % 10
      = charVal d := by omega
  rw [e1, e2, e3, e4, digitChar_charVal ha, digitChar_charVal hb, digitChar_charVal hc,
    digitChar_charVal hd]

theorem daysInMonth_le (y m : Nat) : daysInMonth y m ≤ 31 := by
  unfold daysInMonth
  split
  · split <;> omega
  · split <;> omega

theorem isValidYMD_bounds {y m d : Nat} (h : isValidYMD y m d = true) :
    1 ≤ y ∧ y ≤ 9999 ∧ 1 ≤ m ∧ m ≤ 12 ∧ 1 ≤ d ∧ d ≤ 31 := by
  have h31 := daysInMonth_le y m
  simp [isValidYMD] at h
  omega

theorem fromisoformat_valid {s : String} {d : PyDate} (h : fromisoformat s = some d) :
    isValidYMD d.year d.month d.day = true := by
  unfold fromisoformat at h
  split at h
  · split at h
    · dsimp only at h
      split at h
      · rw [Option.some.injEq] at h
        subst h
        assumption
      · exact Option.noConfusion h
    · exact Option.noConfusion h
  · exact Option.noConfusion h

theorem fromisoformat_mk_digits {a b c d e f g h : Char}
    (ha : a.isDigit = true) (hb : b.isDigit = true) (hc : c.isDigit = true)
    (hd : d.isDigit = true) (he : e.isDigit = true) (hf : f.isDigit = true)
    (hg : g.isDigit = true) (hh : h.isDigit = true) :
    fromisoformat (String.mk [a, b, c, d, '-', e, f, '-', g, h]) =
      (if isValidYMD (natOfDigits [a, b, c, d]) (natOfDigits [e, f]) (natOfDigits [g, h])
       then some ⟨natOfDigits [a, b, c, d], natOfDigits [e, f], natOfDigits [g, h]⟩
       else none) := by
  unfold fromisoformat
  simp [ha, hb, hc, hd, he, hf, hg, hh]

theorem dateIsoformat_mk (y m d : Nat) :
    dateIsoformat ⟨y, m, d⟩ =
      String.mk [Nat.digitChar (y / 1000 % 10), Nat.digitChar (y / 100 % 10),
        Nat.digitChar (y / 10 % 10), Nat.digitChar (y % 10), '-',
        Nat.digitChar (m / 10 % 10), Nat.digitChar (m % 10), '-',
        Nat.digitChar (d / 10 % 10), Nat.digitChar (d % 10)] := rfl

theorem fromisoformat_dateIsoformat {y m d : Nat} (h : isValidYMD y m d = true) :
    fromisoformat (dateIsoformat ⟨y, m, d⟩) = some ⟨y, m, d⟩ := by
  obtain ⟨hy1, hy2, hm1, hm2, hd1, hd2⟩ := isValidYMD_bounds h
  have h10 : ∀ k : Nat, k % 10 < 10 := fun k => Nat.mod_lt _ (by norm_num)
  rw [dateIsoformat_mk]
  rw [fromisoformat_mk_digits (digitChar_isDigit (h10 _)) (digitChar_isDigit (h10 _))
    (digitChar_isDigit (h10 _)) (digitChar_isDigit (h10 _)) (digitChar_isDigit (h10 _))
    (digitChar_isDigit (h10 _)) (digitChar_isDigit (h10 _)) (digitChar_isDigit (h10 _))]
  rw [natOfDigits_four, natOfDigits_two, natOfDigits_two]
  rw [charVal_digitChar (h10 _), charVal_digitChar (h10 _), charVal_digitChar (h10 _),
    charVal_digitChar (h10 _), charVal_digitChar (h10 _), charVal_digitChar (h10 _),
    charVal_digitChar (h10 _), charVal_digitChar (h10 _)]
  have ey : 1000 * (y / 1000 % 10) + 100 * (y / 100 % 10) + 10 * (y / 10 % 10) + y % 10 = y := by
    omega
  have em : 10 * (m / 10 % 10) + m % 10 = m := by omega
  have ed : 10 * (d / 10 % 10) + d % 10 = d := by omega
  rw [ey, em, ed, if_pos h]

theorem isValidIso_dateIsoformat {d : PyDate}
    (hv : isValidYMD d.year d.month d.day = true) :
    isValidIsoDateString (dateIsoformat d) = true := by
  obtain ⟨y, m, dd⟩ := d
  unfold isValidIsoDateString
  rw [fromisoformat_dateIsoformat hv]
  rfl

theorem isoGroupToDate_valid {o : Option (List Char)} {r : String}
    (h : isoGroupToDate o = some r) : isValidIsoDateString r = true := by
  unfold isoGroupToDate at h
  split at h
  · split at h
    · rw [Option.some.injEq] at h
      subst h
      exact isValidIso_dateIsoformat (fromisoformat_valid (by assumption))
    · exact Option.noConfusion h
  · exact Option.noConfusion h

theorem try_parse_iso_valid {s r : String} (h : try_parse_iso s = some r) :
    isValidIsoDateString r = true := by
  unfold try_parse_iso at h
  dsimp only at h
  split at h
  · rw [Option.some.injEq] at h
    subst h
    exact isoGroupToDate_valid (by assumption)
  · exact isoGroupToDate_valid h

theorem try_parse_swedish_valid {s r : String} (h : try_parse_swedish s = some r) :
    isValidIsoDateString r = true := by
  unfold try_parse_swedish at h
  dsimp only at h
  split at h
  · exact Option.noConfusion h
  · split at h
    · exact Option.noConfusion h
    · split at h
      · rw [Option.some.injEq] at h
        subst h
        exact isValidIso_dateIsoformat (by assumption)
      · exact Option.noConfusion h

theorem trySwedishTruthy_valid {s r : String} (h : trySwedishTruthy s = some r) :
    isValidIsoDateString r = true := by
  unfold trySwedishTruthy at h
  split at h
  · split at h
    · exact Option.noConfusion h
    · rw [Option.some.injEq] at h
      subst h
      exact try_parse_swedish_valid (by assumption)
  · exact Option.noConfusion h

theorem normalize_date_valid {s r : String} (h : normalize_date s = some r) :
    isValidIsoDateString r = true := by
  unfold normalize_date at h
  split at h
  · exact Option.noConfusion h
  · split at h
    · split at h
      · exact trySwedishTruthy_valid h
      · rw [Option.some.injEq] at h
        subst h
        exact try_parse_iso_valid (by assumption)
    · exact trySwedishTruthy_valid h

/-! ## Claim theorems -/

/-- C1: the Article `id` is a pure, deterministic function of the record's
`url` alone: every record of a `scrape` run has `id = md5hex url`, and any two
records (from any two runs sharing the hash function, i.e. real `md5`) with
equal `url` strings have equal `id` strings. -/
theorem spec_c1 (md5hex : String → String) (fetch1 fetch2 : String → Option Node)
    (l1 l2 : Node) (r1 r2 : Article)
    (h1 : r1 ∈ scrape md5hex fetch1 l1) (h2 : r2 ∈ scrape md5hex fetch2 l2) :
    r1.id = md5hex r1.url ∧ (r1.url = r2.url → r1.id = r2.id) := by
  unfold scrape at h1 h2
  rw [List.mem_map] at h1 h2
  obtain ⟨i1, -, rfl⟩ := h1
  obtain ⟨i2, -, rfl⟩ := h2
  refine ⟨rfl, fun h => ?_⟩
  simp only at h ⊢
  rw [h]

theorem spec_c1_witness :
    wRec1.id = wMd5 wRec1.url ∧ (wRec1.url = wRec1.url → wRec1.id = wRec1.id) :=
  spec_c1 wMd5 wFetch wFetch wListing wListing wRec1 wRec1 (by decide) (by decide)

/-- C8: a failed detail fetch does not abort the run: `scrape` returns exactly
one record per discovered candidate, in the same order (same `url` at every
index), and a candidate whose fetch fails gets `content = ""`. -/
theorem spec_c8 (md5hex : String → String) (fetch : String → Option Node) (listing : Node) :
    (scrape md5hex fetch listing).length = (extract_main_items listing 5).length ∧
    ∀ (i : Nat) (h1 : i < (scrape md5hex fetch listing).length)
      (h2 : i < (extract_main_items listing 5).length),
      (scrape md5hex fetch listing)[i].url = (extract_main_items listing 5)[i].url ∧
      (fetch ((extract_main_items listing 5)[i].url) = none →
        (scrape md5hex fetch listing)[i].content = "") := by
  constructor
  · unfold scrape
    exact List.length_map _ _
  · intro i h1 h2
    simp only [scrape, List.getElem_map]
    refine ⟨trivial, fun hf => ?_⟩
    simp only [hf]

theorem spec_c8_witness :
    (scrape wMd5 wFetch wListing).length = (extract_main_items wListing 5).length ∧
    ((scrape wMd5 wFetch wListing).get ⟨0, by decide⟩).content = "" := by
  have h := spec_c8 wMd5 wFetch wListing
  refine ⟨h.1, ?_⟩
  have h2 := (h.2 0 (by decide) (by decide)).2 (by rfl)
  simpa using h2

/-- C9: every record's `date` is either the empty string or a well-formed
`YYYY-MM-DD` string denoting a valid calendar date. -/
theorem spec_c9 (md5hex : String → String) (fetch : String → Option Node) (listing : Node)
    (r : Article) (hr : r ∈ scrape md5hex fetch listing) :
    r.date = "" ∨ isValidIsoDateString r.date = true := by
  unfold scrape at hr
  rw [List.mem_map] at hr
  obtain ⟨it, -, rfl⟩ := hr
  simp only
  cases hn : normalize_date (pyOrStr it.date_raw "") with
  | none => left; simp [pyOrStrOpt, hn]
  | some v =>
    by_cases hv : v = ""
    · left; simp [pyOrStrOpt, hn, hv]
    · right
      have := normalize_date_valid hn
      simpa [pyOrStrOpt, hn, hv] using this

theorem spec_c9_witness :
    wRec2.date = "" ∨ isValidIsoDateString wRec2.date = true :=
  spec_c9 wMd5 wFetch wListing wRec2 (by decide)

/-- C10: the metadata written by `upsert_to_pinecone` has exactly the keys
`title`, `date`, `url` (no `content` key), so the search handler's result for
such a vector always has `content = ""`. -/
theorem spec_c10 (embed : String → List Rat) (articles : List Article)
    (v : UpsertVector) (hv : v ∈ upsert_to_pinecone embed articles) :
    v.metadata.map Prod.fst = ["title", "date", "url"] ∧
    v.metadata.lookup "content" = none ∧
    ∀ sc : Option Rat, (buildSearchResult v.metadata sc).content = "" := by
  unfold upsert_to_pinecone at hv
  simp only [List.mem_map] at hv
  obtain ⟨av, -, rfl⟩ := hv
  exact ⟨rfl, rfl, fun sc => rfl⟩

theorem spec_c10_witness :
    (⟨"id1", [], [("title", "T"), ("date", ""), ("url", "u")]⟩ : UpsertVector).metadata.lookup
        "content" = none ∧
    ∀ sc : Option Rat,
      (buildSearchResult [("title", "T"), ("date", ""), ("url", "u")] sc).content = "" := by
  have h := spec_c10 (fun _ => []) [⟨"id1", "T", "", "u", "c"⟩]
    ⟨"id1", [], [("title", "T"), ("date", ""), ("url", "u")]⟩ (by decide)
  exact ⟨h.2.1, h.2.2⟩

theorem containerWalk_eq (a : Node) (anc : List Node) (fuel : Nat) :
    containerWalk a anc fuel =
      (((anc.take fuel).find? (fun p => isContainerTag p.tagName)).getD
        ((anc.take fuel).getLastD a)) := by
  induction anc generalizing a fuel with
  | nil => cases fuel <;> simp [containerWalk]
  | cons p rest ih =>
    cases fuel with
    | zero => simp [containerWalk]
    | succ f =>
      rw [show containerWalk a (p :: rest) (f + 1) =
          (if isContainerTag p.tagName then p else containerWalk p rest f) from rfl]
      by_cases hp : isContainerTag p.tagName
      · simp [hp, List.take_succ_cons, List.find?_cons, hp]
      · rw [ih]
        simp only [List.take_succ_cons, List.find?_cons, hp]
        rw [List.getLastD_cons]
        simp

/-- C6 counterexample: an anchor whose three ancestors are all `span` — no
qualifying ancestor within 3 levels — yet the container is NOT the anchor
itself (it is the third ancestor), contrary to the claimed fallback. -/
theorem spec_c6_counterexample :
    ((cDeepChain.take 3).all (fun p => !(isContainerTag p.tagName))) = true ∧
    containerWalk cDeepAnchor cDeepChain 3 ≠ cDeepAnchor := by
  refine ⟨by decide, fun h => ?_⟩
  have h2 := congrArg Node.tagName h
  revert h2
  decide

/-- C6 amended: the container is the first ancestor within 3 levels whose tag
is `article`, `li` or `div` (stopping early); when no such ancestor exists the
container is the third ancestor — or the last one if the chain is shorter, or
the anchor itself only when the anchor has no parent at all. -/
theorem spec_c6 (a : Node) (anc : List Node) :
    containerWalk a anc 3 =
      (((anc.take 3).find? (fun p => isContainerTag p.tagName)).getD
        ((anc.take 3).getLastD a)) :=
  containerWalk_eq a anc 3

/-! ## Helper lemmas: whitespace, the raw-string text scanner, empty text -/

theorem isPySpace_ne {c : Char} (h : isPySpace c = true) : ¬c = '<' ∧ ¬c = '&' := by
  constructor <;> rintro rfl <;> simp [isPySpace] at h

set_option maxHeartbeats 4000000 in
theorem bsChunksAux_step {c : Char} (rest cur : List Char) (h1 : ¬c = '<') (h2 : ¬c = '&') :
    bsChunksAux (c :: rest) false cur = bsChunksAux rest false (c :: cur) :=
  bsChunksAux.eq_10 cur c rest (fun hc _ => h1 hc) (fun _ _ hc _ => h1 hc)
    (fun _ hc _ => h2 hc) (fun _ hc _ => h2 hc) (fun _ hc _ => h2 hc)
    (fun _ hc _ => h2 hc) (fun _ hc _ => h2 hc)

/-- On strings with no markup and no entity references the scanner is the
identity: a single chunk holding the whole input. -/
theorem bsChunksAux_plain : ∀ (l cur : List Char),
    (∀ c ∈ l, ¬c = '<' ∧ ¬c = '&') →
    bsChunksAux l false cur = (if cur = [] ∧ l = [] then [] else [cur.reverse ++ l]) := by
  intro l
  induction l with
  | nil =>
    intro cur _
    by_cases hc : cur = [] <;> simp [bsChunksAux, hc, List.isEmpty_iff]
  | cons c rest ih =>
    intro cur h
    have hc := h c (by simp)
    have hrest : ∀ x ∈ rest, ¬x = '<' ∧ ¬x = '&' := fun x hx => h x (by simp [hx])
    rw [bsChunksAux_step rest cur hc.1 hc.2, ih (c :: cur) hrest]
    by_cases hr : rest = [] <;> simp [hr]

theorem wsOnly_append {a b : String} (ha : wsOnlyStr a = true) (hb : wsOnlyStr b = true) :
    wsOnlyStr (a ++ b) = true := by
  simp only [wsOnlyStr, String.data_append, List.all_append, Bool.and_eq_true] at *
  exact ⟨ha, hb⟩

theorem wsOnly_joinSepSp : ∀ l : List String, (∀ s ∈ l, wsOnlyStr s = true) →
    wsOnlyStr (joinSepSp l) = true
  | [], _ => by decide
  | [s], h => h s (by simp)
  | s :: r1 :: rest, h => by
    rw [show joinSepSp (s :: r1 :: rest) = s ++ " " ++ joinSepSp (r1 :: rest) from rfl]
    exact wsOnly_append (wsOnly_append (h s (by simp)) (by decide))
      (wsOnly_joinSepSp (r1 :: rest) (fun x hx => h x (by simp [hx])))

mutual
theorem noText_findFirstP (p : String → Bool) : (n : Node) → noText n = true →
    ∀ r, findFirstP p n = some r → noText r = true
  | .text s, _, r, hf => by simp [findFirstP] at hf
  | .element t a cs, h, r, hf =>
    noText_findFirstPL p cs (by simpa [noText] using h) r (by simpa [findFirstP] using hf)
theorem noText_findFirstPL (p : String → Bool) : (cs : List Node) → noTextL cs = true →
    ∀ r, findFirstPL p cs = some r → noText r = true
  | [], _, r, hf => by simp [findFirstPL] at hf
  | c :: cs, h, r, hf => by
    have h2 : noText c = true ∧ noTextL cs = true := by
      simpa [noTextL, Bool.and_eq_true] using h
    rw [findFirstPL] at hf
    split at hf
    · rw [Option.some.injEq] at hf
      subst hf
      exact h2.1
    · split at hf
      · rw [Option.some.injEq] at hf
        subst hf
        exact noText_findFirstP p c h2.1 _ (by assumption)
      · exact noText_findFirstPL p cs h2.2 r hf
end

mutual
theorem noText_findAllP (p : String → Bool) : (n : Node) → noText n = true →
    ∀ r ∈ findAllP p n, noText r = true
  | .text s, _, r, hr => by simp [findAllP] at hr
  | .element t a cs, h, r, hr =>
    noText_findAllPL p cs (by simpa [noText] using h) r (by simpa [findAllP] using hr)
theorem noText_findAllPL (p : String → Bool) : (cs : List Node) → noTextL cs = true →
    ∀ r ∈ findAllPL p cs, noText r = true
  | [], _, r, hr => by simp [findAllPL] at hr
  | c :: cs, h, r, hr => by
    have h2 : noText c = true ∧ noTextL cs = true := by
      simpa [noTextL, Bool.and_eq_true] using h
    rw [findAllPL] at hr
    rw [List.mem_append, List.mem_append] at hr
    rcases hr with (hr | hr) | hr
    · have : r = c := by
        by_cases hcond : (c.isElem && p c.tagName) = true <;> simp [hcond] at hr
        exact hr
      subst this
      exact h2.1
    · exact noText_findAllP p c h2.1 r hr
    · exact noText_findAllPL p cs h2.2 r hr
end

mutual
theorem noText_strings : (n : Node) → noText n = true →
    ∀ s ∈ getTextList n, wsOnlyStr s = true
  | .text str, h, s, hs => by
    simp only [getTextList, List.mem_singleton] at hs
    subst hs
    simpa [noText] using h
  | .element t a cs, h, s, hs =>
    noText_stringsL cs (by simpa [noText] using h) s (by simpa [getTextList] using hs)
theorem noText_stringsL : (cs : List Node) → noTextL cs = true →
    ∀ s ∈ getTextListL cs, wsOnlyStr s = true
  | [], _, s, hs => by simp [getTextListL] at hs
  | c :: cs, h, s, hs => by
    have h2 : noText c = true ∧ noTextL cs = true := by
      simpa [noTextL, Bool.and_eq_true] using h
    rw [getTextListL, List.mem_append] at hs
    rcases hs with hs | hs
    · exact noText_strings c h2.1 s hs
    · exact noText_stringsL cs h2.2 s hs
end

theorem getText_wsOnly {n : Node} (h : noText n = true) : wsOnlyStr (getText n) = true :=
  wsOnly_joinSepSp _ (noText_strings n h)

theorem collapseWs_all_ws : ∀ (l : List Char) (b : Bool),
    (∀ c ∈ l, isPySpace c = true) → ∀ c ∈ collapseWsAux l b, isPySpace c = true
  | [], _, _ => by simp [collapseWsAux]
  | c :: rest, b, h => by
    have hc := h c (by simp)
    have hrest : ∀ x ∈ rest, isPySpace x = true := fun x hx => h x (by simp [hx])
    intro x hx
    rw [collapseWsAux, if_pos hc] at hx
    cases b with
    | true => exact collapseWs_all_ws rest true hrest x hx
    | false =>
      rcases List.mem_cons.mp hx with rfl | hx2
      · decide
      · exact collapseWs_all_ws rest true hrest x hx2

theorem dropWhile_all_ws {l : List Char} (h : ∀ c ∈ l, isPySpace c = true) :
    l.dropWhile isPySpace = [] := by
  induction l with
  | nil => rfl
  | cons c rest ih =>
    rw [List.dropWhile_cons, if_pos (h c (by simp))]
    exact ih (fun x hx => h x (by simp [hx]))

theorem normalize_whitespace_wsOnly {s : String} (h : wsOnlyStr s = true) :
    normalize_whitespace s = "" := by
  unfold normalize_whitespace stripList
  rw [dropWhile_all_ws (collapseWs_all_ws s.data false
    (by simpa [wsOnlyStr, List.all_eq_true] using h))]
  rfl

theorem clean_text_wsOnly {s : String} (h : wsOnlyStr s = true) : clean_text s = "" := by
  have hchars : ∀ c ∈ s.data, ¬c = '<' ∧ ¬c = '&' := by
    intro c hc
    exact isPySpace_ne ((List.all_eq_true.mp (by simpa [wsOnlyStr] using h)) c hc)
  unfold clean_text bsGetText
  rw [bsChunksAux_plain s.data [] hchars]
  by_cases hs : s.data = []
  · have hse : s = "" := by
      cases s with
      | mk d =>
        have hd : d = [] := by simpa using hs
        subst hd
        rfl
    rw [hse]
    decide
  · simp only [hs, and_false, if_false, List.reverse_nil, List.nil_append, List.map_cons,
      List.map_nil]
    rw [show joinSepSp [String.mk s.data] = String.mk s.data from rfl]
    rw [show String.mk s.data = s from rfl]
    exact normalize_whitespace_wsOnly h

theorem regionContent_eq (r : Node) : regionContent r = regionContentAmended r := by
  unfold regionContent regionContentAmended pyOrStr
  by_cases h : joinSp ((findAllP (fun t => t = "p") r).map (fun p => getText p)) = "" <;>
    simp [h]

theorem extract_detail_eq_amended (doc : Node) :
    extract_detail_content doc = extract_detail_content_amended doc := by
  unfold extract_detail_content extract_detail_content_amended
  cases findFirstP (fun t => t = "article") doc with
  | some art => exact regionContent_eq art
  | none =>
    cases findFirstP (fun t => t = "main") doc with
    | some m => exact regionContent_eq m
    | none => exact regionContent_eq doc

theorem regionContent_noText {r : Node} (h : noText r = true) : regionContent r = "" := by
  unfold regionContent
  have hps : ∀ s ∈ (findAllP (fun t => t = "p") r).map (fun p => getText p),
      wsOnlyStr s = true := by
    intro s hs
    rw [List.mem_map] at hs
    obtain ⟨pn, hpn, rfl⟩ := hs
    exact getText_wsOnly (noText_findAllP _ r h pn hpn)
  have hj := wsOnly_joinSepSp _ hps
  have hr := getText_wsOnly h
  unfold pyOrStr
  dsimp only
  split
  · exact clean_text_wsOnly hr
  · exact clean_text_wsOnly hj

/-- C7 counterexample: on an `article` containing one empty paragraph and
loose text `hello`, the code falls back to the article's whole text (the
joined paragraph text is falsy) and returns `"hello"`, while the claimed rule
(fall back only when there are NO paragraphs) yields `""`. -/
theorem spec_c7_counterexample :
    extract_detail_content cDetailDoc ≠ extract_detail_content_claimed cDetailDoc := by
  decide

/-- C7 amended: `extract_detail_content` follows the preference order
article → main → whole document, joining paragraph texts with single spaces
and falling back to the region's whole text when the joined paragraph text is
empty (hence also when every paragraph is empty, not only when there are no
paragraphs); it is a total function and returns the empty string on a
document with no extractable text. -/
theorem spec_c7 (doc : Node) :
    extract_detail_content doc = extract_detail_content_amended doc ∧
    (noText doc = true → extract_detail_content doc = "") := by
  refine ⟨extract_detail_eq_amended doc, fun h => ?_⟩
  unfold extract_detail_content
  cases hf : findFirstP (fun t => t = "article") doc with
  | some art => exact regionContent_noText (noText_findFirstP _ doc h art hf)
  | none =>
    cases hf2 : findFirstP (fun t => t = "main") doc with
    | some m => exact regionContent_noText (noText_findFirstP _ doc h m hf2)
    | none => exact regionContent_noText h

theorem spec_c7_witness :
    extract_detail_content cEmptyDoc = extract_detail_content_amended cEmptyDoc ∧
    extract_detail_content cEmptyDoc = "" :=
  ⟨(spec_c7 cEmptyDoc).1, (spec_c7 cEmptyDoc).2 (by decide)⟩

/-! ## Helper lemmas and claims: the listing extractor (C2) -/

theorem extractLoop_eq : ∀ (l : List (Node × List Node)) (seen : List String) (cur n : Nat),
    extractLoop l seen cur n =
      (dedupBySeen (l.filterMap buildItem) seen).take (max (n - cur) 1) := by
  intro l
  induction l with
  | nil => intro seen cur n; simp [extractLoop, dedupBySeen]
  | cons an rest ih =>
    intro seen cur n
    obtain ⟨a, anc⟩ := an
    rw [extractLoop, List.filterMap_cons]
    cases hh : getAttr a "href" with
    | none =>
      rw [show buildItem (a, anc) = none by simp [buildItem, hh]]
      try dsimp only
      exact ih seen cur n
    | some href =>
      try dsimp only
      by_cases h0 : href = ""
      · subst h0
        rw [if_pos rfl]
        rw [show buildItem (a, anc) = none by simp [buildItem, hh]]
        try dsimp only
        exact ih seen cur n
      · rw [if_neg h0]
        try dsimp only
        by_cases hseen : absolute_url href ∈ seen
        · rw [if_pos hseen]
          cases hb : buildItem (a, anc) with
          | none =>
            try dsimp only
            exact ih seen cur n
          | some it =>
            have hu : it.url = absolute_url href := by
              simp only [buildItem, hh, h0, if_false] at hb
              try dsimp only at hb
              split at hb
              · exact Option.noConfusion hb
              · rw [Option.some.injEq] at hb
                subst hb
                rfl
            try dsimp only
            rw [dedupBySeen, if_pos (hu ▸ hseen)]
            exact ih seen cur n
        · rw [if_neg hseen]
          try dsimp only
          by_cases ht : titleOf a (containerWalk a anc 3) = ""
          · rw [if_pos ht]
            rw [show buildItem (a, anc) = none by simp [buildItem, hh, h0, ht]]
            try dsimp only
            exact ih seen cur n
          · rw [if_neg ht]
            have hb : buildItem (a, anc) =
                some ⟨titleOf a (containerWalk a anc 3),
                  dateRawOf (containerWalk a anc 3), absolute_url href⟩ := by
              simp [buildItem, hh, h0, ht]
            rw [hb]
            try dsimp only
            rw [dedupBySeen, if_neg hseen]
            by_cases hcap : n ≤ cur + 1
            · rw [if_pos hcap]
              have hm : max (n - cur) 1 = 1 := by omega
              rw [hm, List.take_succ_cons, List.take_zero]
            · rw [if_neg hcap]
              rw [ih (absolute_url href :: seen) (cur + 1) n]
              have h1 : max (n - cur) 1 = (n - cur - 1) + 1 := by omega
              have h2 : max (n - (cur + 1)) 1 = n - cur - 1 := by omega
              rw [h1, h2, List.take_succ_cons]

theorem extract_main_items_eq (doc : Node) (n : Nat) :
    extract_main_items doc n =
      (dedupBySeen ((collectAnchors doc []).filterMap buildItem) []).take (max n 1) := by
  unfold extract_main_items
  rw [extractLoop_eq]
  norm_num

theorem dedupBySeen_nodup : ∀ (l : List Item) (seen : List String),
    ((dedupBySeen l seen).map (fun it => it.url)).Nodup ∧
    ∀ u ∈ (dedupBySeen l seen).map (fun it => it.url), u ∉ seen
  | [], seen => by simp [dedupBySeen]
  | it :: rest, seen => by
    rw [dedupBySeen]
    by_cases hs : it.url ∈ seen
    · rw [if_pos hs]
      exact dedupBySeen_nodup rest seen
    · rw [if_neg hs]
      obtain ⟨hnd, hni⟩ := dedupBySeen_nodup rest (it.url :: seen)
      refine ⟨?_, ?_⟩
      · rw [List.map_cons, List.nodup_cons]
        refine ⟨fun hmem => ?_, hnd⟩
        exact (hni _ hmem) (by simp)
      · intro u hu
        rw [List.map_cons, List.mem_cons] at hu
        rcases hu with rfl | hu
        · exact hs
        · intro hu2
          exact (hni u hu) (by simp [hu2])

/-- C2 counterexample: (i) with `max_items = 0` the extractor still returns
one item (the cap check runs only after an append), refuting "at most
max_items" as stated; (ii) two qualifying anchors share a URL, the first
yields an empty title and is discarded without reserving its URL, so the kept
item comes from the SECOND anchor in document order. -/
theorem spec_c2_counterexample :
    ¬ ((extract_main_items cCapDoc 0).length ≤ 0) ∧
    (collectAnchors cDupDoc []).map buildItem =
      [none, some ⟨"Hello", "Hello", "https://www.linkoping.se/nyheter/x"⟩] ∧
    extract_main_items cDupDoc 5 =
      [⟨"Hello", "Hello", "https://www.linkoping.se/nyheter/x"⟩] :=
  ⟨by decide, by decide, by decide⟩

/-- C2 amended: `extract_main_items` equals first-occurrence URL
deduplication of the per-anchor items (anchors discarded for a missing href
or an empty title do not reserve their URL) truncated to `max n 1` items;
hence at most `n` items whenever `n ≥ 1`, and no two returned items share a
`url`. -/
theorem spec_c2 (doc : Node) (n : Nat) :
    extract_main_items doc n =
      (dedupBySeen ((collectAnchors doc []).filterMap buildItem) []).take (max n 1) ∧
    (1 ≤ n → (extract_main_items doc n).length ≤ n) ∧
    ((extract_main_items doc n).map (fun it => it.url)).Nodup := by
  have he := extract_main_items_eq doc n
  refine ⟨he, fun h1 => ?_, ?_⟩
  · rw [he]
    have hm : max n 1 = n := by omega
    rw [hm]
    exact List.length_take_le _ _
  · rw [he]
    have hnd := (dedupBySeen_nodup ((collectAnchors doc []).filterMap buildItem) []).1
    rw [List.map_take]
    exact List.Nodup.sublist (List.take_sublist _ _) hnd

theorem spec_c2_witness :
    (extract_main_items wListing 5).length ≤ 5 ∧
    ((extract_main_items wListing 5).map (fun it => it.url)).Nodup :=
  ⟨(spec_c2 wListing 5).2.1 (by decide), (spec_c2 wListing 5).2.2⟩

/-! ## Helper lemmas and claims: date normalisation (C3, C4) -/

theorem isPySpace_cases {c : Char} (h : isPySpace c = true) :
    c = ' ' ∨ c = '\t' ∨ c = '\n' ∨ c = '\r' ∨ c = '\x0b' ∨ c = '\x0c' := by
  simpa [isPySpace, or_assoc] using h

theorem isPySpace_not_digit {c : Char} (h : isPySpace c = true) : c.isDigit = false := by
  rcases isPySpace_cases h with rfl | rfl | rfl | rfl | rfl | rfl <;> decide

theorem isPySpace_ne_dash {c : Char} (h : isPySpace c = true) : ¬c = '-' := by
  rcases isPySpace_cases h with rfl | rfl | rfl | rfl | rfl | rfl <;> decide

theorem isoOkAt_ws_head {c : Char} (rest : List Char) (h : isPySpace c = true) :
    isoOkAt (c :: rest) = false := by
  unfold isoOkAt
  rw [show digitAt (c :: rest) 0 = c.isDigit from by simp [digitAt], isPySpace_not_digit h]
  simp

theorem isoMatchAt_ws_head {c : Char} (rest : List Char) (h : isPySpace c = true) :
    isoMatchAt (c :: rest) = none := by
  unfold isoMatchAt
  rw [isoOkAt_ws_head rest h]
  simp

theorem reSearch_cons_none {α : Type} {m : List Char → Option α} {c : Char}
    {rest : List Char} (h : m (c :: rest) = none) :
    reSearch m (c :: rest) = reSearch m rest := by
  rw [reSearch, h]

theorem reSearch_ws_none : ∀ (b : List Char), (∀ c ∈ b, isPySpace c = true) →
    reSearch isoMatchAt b = none
  | [], _ => rfl
  | c :: rest, h => by
    rw [reSearch_cons_none (isoMatchAt_ws_head rest (h c (by simp)))]
    exact reSearch_ws_none rest (fun x hx => h x (by simp [hx]))

theorem digitAt_append_ws {l b : List Char} (hb : ∀ c ∈ b, isPySpace c = true) (k : Nat) :
    digitAt (l ++ b) k = digitAt l k := by
  unfold digitAt
  by_cases hk : k < l.length
  · rw [List.getElem?_append_left hk]
  · rw [List.getElem?_append_right (by omega),
      show l[k]? = none from List.getElem?_eq_none (by omega)]
    cases hbk : b[k - l.length]? with
    | none => rfl
    | some c =>
      dsimp only
      exact isPySpace_not_digit (hb c (List.getElem?_mem hbk))

theorem charEqAt_append_dash {l b : List Char} (hb : ∀ c ∈ b, isPySpace c = true) (k : Nat) :
    charEqAt (l ++ b) k '-' = charEqAt l k '-' := by
  unfold charEqAt
  by_cases hk : k < l.length
  · rw [List.getElem?_append_left hk]
  · rw [List.getElem?_append_right (by omega),
      show l[k]? = none from List.getElem?_eq_none (by omega)]
    cases hbk : b[k - l.length]? with
    | none => rfl
    | some c =>
      have hne := isPySpace_ne_dash (hb c (List.getElem?_mem hbk))
      simp [hne]

theorem isoOkAt_append_ws {l b : List Char} (hb : ∀ c ∈ b, isPySpace c = true) :
    isoOkAt (l ++ b) = isoOkAt l := by
  unfold isoOkAt
  rw [digitAt_append_ws hb 0, digitAt_append_ws hb 1, digitAt_append_ws hb 2,
    digitAt_append_ws hb 3, charEqAt_append_dash hb 4, digitAt_append_ws hb 5,
    digitAt_append_ws hb 6, charEqAt_append_dash hb 7, digitAt_append_ws hb 8,
    digitAt_append_ws hb 9]

theorem isoOkAt_length {l : List Char} (h : isoOkAt l = true) : 10 ≤ l.length := by
  unfold isoOkAt digitAt at h
  simp only [Bool.and_eq_true] at h
  have h9 := h.2
  cases hl : l[9]? with
  | none => rw [hl] at h9; exact absurd h9 (by decide)
  | some c =>
    obtain ⟨hlt, -⟩ := List.getElem?_eq_some.mp hl
    omega

theorem isoMatchAt_append_ws {l b : List Char} (hb : ∀ c ∈ b, isPySpace c = true) :
    isoMatchAt (l ++ b) = isoMatchAt l := by
  unfold isoMatchAt
  rw [isoOkAt_append_ws hb]
  by_cases hok : isoOkAt l = true
  · rw [if_pos hok, if_pos hok, List.take_append_of_le_length (isoOkAt_length hok)]
  · rw [if_neg hok, if_neg hok]

theorem reSearch_append_ws : ∀ (l : List Char) {b : List Char},
    (∀ c ∈ b, isPySpace c = true) →
    reSearch isoMatchAt (l ++ b) = reSearch isoMatchAt l
  | [], b, hb => by
    simp only [List.nil_append]
    rw [reSearch_ws_none b hb]
    rfl
  | c :: rest, b, hb => by
    rw [List.cons_append, reSearch, reSearch, ← List.cons_append, isoMatchAt_append_ws hb]
    cases isoMatchAt (c :: rest) with
    | some g => rfl
    | none =>
      dsimp only
      exact reSearch_append_ws rest hb

theorem dropTrailingWs_spec : ∀ l : List Char,
    ∃ b, l = dropTrailingWs l ++ b ∧ (∀ c ∈ b, isPySpace c = true)
  | [] => ⟨[], rfl, by simp⟩
  | c :: rest => by
    obtain ⟨b, hb1, hb2⟩ := dropTrailingWs_spec rest
    rw [show dropTrailingWs (c :: rest) =
        (if (dropTrailingWs rest).isEmpty && isPySpace c then []
         else c :: dropTrailingWs rest) from rfl]
    by_cases hcond : ((dropTrailingWs rest).isEmpty && isPySpace c) = true
    · rw [if_pos hcond]
      simp only [Bool.and_eq_true, List.isEmpty_iff] at hcond
      refine ⟨c :: rest, rfl, ?_⟩
      intro x hx
      rcases List.mem_cons.mp hx with rfl | hx2
      · exact hcond.2
      · apply hb2
        rw [hcond.1, List.nil_append] at hb1
        rwa [← hb1]
    · rw [if_neg hcond]
      exact ⟨b, by rw [List.cons_append, ← hb1], hb2⟩

theorem reSearch_dropWhile_ws : ∀ l : List Char,
    reSearch isoMatchAt (l.dropWhile isPySpace) = reSearch isoMatchAt l
  | [] => rfl
  | c :: rest => by
    by_cases hc : isPySpace c = true
    · rw [List.dropWhile_cons, if_pos hc, reSearch_dropWhile_ws rest,
        reSearch_cons_none (isoMatchAt_ws_head rest hc)]
    · rw [List.dropWhile_cons, if_neg hc]

theorem reSearch_strip (s : String) :
    reSearch isoMatchAt (pyStrip s).data = reSearch isoMatchAt s.data := by
  rw [show (pyStrip s).data = stripList s.data from rfl]
  unfold stripList
  obtain ⟨b, hb1, hb2⟩ := dropTrailingWs_spec (s.data.dropWhile isPySpace)
  calc reSearch isoMatchAt (dropTrailingWs (s.data.dropWhile isPySpace))
      = reSearch isoMatchAt (dropTrailingWs (s.data.dropWhile isPySpace) ++ b) :=
        (reSearch_append_ws _ hb2).symm
    _ = reSearch isoMatchAt (s.data.dropWhile isPySpace) := by rw [← hb1]
    _ = reSearch isoMatchAt s.data := reSearch_dropWhile_ws s.data

theorem mkData (s : String) : String.mk s.data = s := by
  cases s
  rfl

theorem dateIsoformat_fromisoformat_inv {s : String} {d : PyDate}
    (h : fromisoformat s = some d) : dateIsoformat d = s := by
  unfold fromisoformat at h
  split at h
  case h_2 => exact Option.noConfusion h
  case h_1 a b c dd dash1 e f dash2 g hh heq =>
    split at h
    case isFalse => exact Option.noConfusion h
    case isTrue hdig =>
      dsimp only at h
      split at h
      case isFalse => exact Option.noConfusion h
      case isTrue hval =>
        rw [Option.some.injEq] at h
        subst h
        simp only [Bool.and_eq_true, decide_eq_true_eq] at hdig
        obtain ⟨⟨⟨⟨⟨⟨⟨⟨⟨ha, hb⟩, hc⟩, hd2⟩, hd1⟩, he⟩, hf⟩, hd3⟩, hg⟩, hh2⟩ := hdig
        subst hd1
        subst hd3
        unfold dateIsoformat
        dsimp only
        rw [pad4_natOfDigits ha hb hc hd2, pad2_natOfDigits he hf, pad2_natOfDigits hg hh2]
        rw [show ([a, b, c, dd] ++ '-' :: ([e, f] ++ '-' :: [g, hh]) : List Char)
            = [a, b, c, dd, '-', e, f, '-', g, hh] from rfl]
        rw [← heq, mkData]

theorem fromisoformat_ne_empty {s : String} {d : PyDate}
    (h : fromisoformat s = some d) : ¬s = "" := by
  intro he
  subst he
  exact Option.noConfusion h

/-- C3: whenever the leftmost `\d{4}-\d{2}-\d{2}` match in the input is a
valid calendar date, `normalize_date` returns exactly that matched
`YYYY-MM-DD` string (stripping cannot change the match, and
`fromisoformat(...).date().isoformat()` reproduces the matched text). -/
theorem spec_c3 (s : String) (g : List Char)
    (hs : reSearch isoMatchAt s.data = some g)
    (hv : isValidIsoDateString (String.mk g) = true) :
    normalize_date s = some (String.mk g) := by
  obtain ⟨d, hd⟩ : ∃ d, fromisoformat (String.mk g) = some d := by
    unfold isValidIsoDateString at hv
    cases hfi : fromisoformat (String.mk g) with
    | none => rw [hfi] at hv; exact absurd hv (by decide)
    | some d => exact ⟨d, rfl⟩
  have hti : try_parse_iso s = some (String.mk g) := by
    unfold try_parse_iso
    dsimp only
    rw [reSearch_strip s, hs]
    unfold isoGroupToDate
    dsimp only
    rw [hd]
    dsimp only
    rw [dateIsoformat_fromisoformat_inv hd]
  have hne : ¬s = "" := by
    intro he
    subst he
    exact Option.noConfusion hs
  unfold normalize_date
  rw [if_neg hne, hti]
  dsimp only
  rw [if_neg (fromisoformat_ne_empty hd)]

theorem spec_c3_witness :
    normalize_date "Publicerad 2024-09-01T12:34" = some (String.mk "2024-09-01".data) :=
  spec_c3 "Publicerad 2024-09-01T12:34" "2024-09-01".data (by decide) (by decide)

theorem dateIsoformat_ne_empty (d : PyDate) : ¬dateIsoformat d = "" := by
  intro h
  have h2 := congrArg String.data h
  simp [dateIsoformat, pad4] at h2

/-- C4: `normalize_date` never raises. When the ISO strategy fails and the
Swedish pattern `day month-name year` matches with a month from the table:
a valid day/month/year combination yields the corresponding ISO date, while
an invalid one (e.g. day 32) makes `datetime` raise `ValueError`, which the
code catches and converts into the unparseable sentinel `None` — the
strategy falls through instead of raising. -/
theorem spec_c4 (s : String) (ds ms ys : List Char) (m : Nat)
    (hiso : try_parse_iso s = none)
    (hsw : reSearch swMatchAt (pyLower s).data = some (ds, ms, ys))
    (hm : SWEDISH_MONTHS.lookup (String.mk ms) = some m) :
    (isValidYMD (natOfDigits ys) m (natOfDigits ds) = true →
      normalize_date s = some (dateIsoformat ⟨natOfDigits ys, m, natOfDigits ds⟩)) ∧
    (isValidYMD (natOfDigits ys) m (natOfDigits ds) = false →
      normalize_date s = none) := by
  have hne : ¬s = "" := by
    intro he
    subst he
    exact Option.noConfusion hsw
  constructor
  · intro hv
    have htsw : try_parse_swedish s =
        some (dateIsoformat ⟨natOfDigits ys, m, natOfDigits ds⟩) := by
      unfold try_parse_swedish
      dsimp only
      rw [hsw]
      dsimp only
      rw [hm]
      dsimp only
      rw [if_pos hv]
    unfold normalize_date
    rw [if_neg hne, hiso]
    unfold trySwedishTruthy
    rw [htsw]
    dsimp only
    rw [if_neg (dateIsoformat_ne_empty _)]
  · intro hv
    have htsw : try_parse_swedish s = none := by
      unfold try_parse_swedish
      dsimp only
      rw [hsw]
      dsimp only
      rw [hm]
      dsimp only
      rw [if_neg (by rw [hv]; exact Bool.false_ne_true)]
    unfold normalize_date
    rw [if_neg hne, hiso]
    unfold trySwedishTruthy
    rw [htsw]

theorem spec_c4_witness :
    normalize_date "28 augusti 2024" = some (dateIsoformat ⟨2024, 8, 28⟩) ∧
    normalize_date "32 januari 2024" = none := by
  constructor
  · exact (spec_c4 "28 augusti 2024" ['2', '8'] "augusti".data "2024".data 8
      (by decide) (by decide) (by decide)).1 (by decide)
  · exact (spec_c4 "32 januari 2024" ['3', '2'] "januari".data "2024".data 1
      (by decide) (by decide) (by decide)).2 (by decide)

/-! ## Helper lemmas and claims: the text cleaner (C5) -/

theorem collapseWs_space : ∀ (l : List Char) (b : Bool) (c : Char),
    c ∈ collapseWsAux l b → isPySpace c = true → c = ' '
  | [], b, c, hc, _ => by simp [collapseWsAux] at hc
  | x :: r, b, c, hc, hw => by
    rw [collapseWsAux] at hc
    by_cases hx : isPySpace x = true
    · rw [if_pos hx] at hc
      cases b with
      | true => exact collapseWs_space r true c hc hw
      | false =>
        rcases List.mem_cons.mp hc with rfl | hc2
        · rfl
        · exact collapseWs_space r true c hc2 hw
    · rw [if_neg hx] at hc
      rcases List.mem_cons.mp hc with rfl | hc2
      · exact absurd hw hx
      · exact collapseWs_space r false c hc2 hw

theorem collapseWs_chars : ∀ (l : List Char) (b : Bool) (c : Char),
    c ∈ collapseWsAux l b → c = ' ' ∨ c ∈ l
  | [], b, c, hc => by simp [collapseWsAux] at hc
  | x :: r, b, c, hc => by
    rw [collapseWsAux] at hc
    by_cases hx : isPySpace x = true
    · rw [if_pos hx] at hc
      cases b with
      | true =>
        rcases collapseWs_chars r true c hc with h | h
        · exact Or.inl h
        · exact Or.inr (by simp [h])
      | false =>
        rcases List.mem_cons.mp hc with rfl | hc2
        · exact Or.inl rfl
        · rcases collapseWs_chars r true c hc2 with h | h
          · exact Or.inl h
          · exact Or.inr (by simp [h])
    · rw [if_neg hx] at hc
      rcases List.mem_cons.mp hc with rfl | hc2
      · exact Or.inr (by simp)
      · rcases collapseWs_chars r false c hc2 with h | h
        · exact Or.inl h
        · exact Or.inr (by simp [h])

theorem collapseWs_true_head : ∀ (l : List Char) (c : Char) (rest : List Char),
    collapseWsAux l true = c :: rest → isPySpace c = false
  | [], c, rest, h => by simp [collapseWsAux] at h
  | x :: r, c, rest, h => by
    rw [collapseWsAux] at h
    by_cases hx : isPySpace x = true
    · rw [if_pos hx] at h
      exact collapseWs_true_head r c rest h
    · rw [if_neg hx] at h
      rw [List.cons.injEq] at h
      rw [h.1] at hx
      exact Bool.eq_false_iff.mpr hx

theorem noDouble_cons {a : Char} {rest : List Char} (ha : isPySpace a = false)
    (h : noDoubleWsList rest = true) : noDoubleWsList (a :: rest) = true := by
  cases rest with
  | nil => rfl
  | cons b r =>
    simp only [noDoubleWsList, Bool.and_eq_true]
    refine ⟨?_, h⟩
    simp [ha]

theorem collapseWs_noDouble : ∀ (l : List Char) (b : Bool),
    noDoubleWsList (collapseWsAux l b) = true
  | [], _ => rfl
  | x :: r, b => by
    rw [collapseWsAux]
    by_cases hx : isPySpace x = true
    · rw [if_pos hx]
      cases b with
      | true => exact collapseWs_noDouble r true
      | false =>
        cases ho : collapseWsAux r true with
        | nil => rfl
        | cons c rest =>
          have hcn := collapseWs_true_head r c rest ho
          have hnd := collapseWs_noDouble r true
          rw [ho] at hnd
          simp only [noDoubleWsList, Bool.and_eq_true]
          exact ⟨by simp [hcn], hnd⟩
    · rw [if_neg hx]
      exact noDouble_cons (Bool.eq_false_iff.mpr hx) (collapseWs_noDouble r false)

theorem noDouble_tail {a : Char} {rest : List Char}
    (h : noDoubleWsList (a :: rest) = true) : noDoubleWsList rest = true := by
  cases rest with
  | nil => rfl
  | cons b r =>
    simp only [noDoubleWsList, Bool.and_eq_true] at h
    exact h.2

theorem noDouble_append_left : ∀ (v b : List Char),
    noDoubleWsList (v ++ b) = true → noDoubleWsList v = true
  | [], _, _ => rfl
  | [a], _, _ => rfl
  | a :: a2 :: v2, b, h => by
    simp only [List.cons_append, noDoubleWsList, Bool.and_eq_true] at h ⊢
    exact ⟨h.1, noDouble_append_left (a2 :: v2) b (by simpa using h.2)⟩

theorem noDouble_dropWhile {l : List Char} (h : noDoubleWsList l = true) :
    noDoubleWsList (l.dropWhile isPySpace) = true := by
  induction l with
  | nil => exact h
  | cons c rest ih =>
    rw [List.dropWhile_cons]
    by_cases hc : isPySpace c = true
    · rw [if_pos hc]
      exact ih (noDouble_tail h)
    · rw [if_neg hc]
      exact h

theorem dropWhile_head_not {l : List Char} {c : Char} {rest : List Char}
    (h : l.dropWhile isPySpace = c :: rest) : isPySpace c = false := by
  induction l with
  | nil => simp at h
  | cons x r ih =>
    rw [List.dropWhile_cons] at h
    by_cases hx : isPySpace x = true
    · rw [if_pos hx] at h
      exact ih h
    · rw [if_neg hx] at h
      rw [List.cons.injEq] at h
      rw [h.1] at hx
      exact Bool.eq_false_iff.mpr hx

theorem dropTrailingWs_last : ∀ (l : List Char) (c : Char),
    (dropTrailingWs l).getLast? = some c → isPySpace c = false
  | [], c, h => by simp [dropTrailingWs] at h
  | x :: r, c, h => by
    rw [show dropTrailingWs (x :: r) =
        (if (dropTrailingWs r).isEmpty && isPySpace x then []
         else x :: dropTrailingWs r) from rfl] at h
    by_cases hcond : ((dropTrailingWs r).isEmpty && isPySpace x) = true
    · rw [if_pos hcond] at h
      simp at h
    · rw [if_neg hcond] at h
      cases hdr : dropTrailingWs r with
      | nil =>
        rw [hdr] at h hcond
        simp only [List.getLast?_singleton, Option.some.injEq] at h
        subst h
        have hx : ¬isPySpace x = true := by simpa using hcond
        exact Bool.eq_false_iff.mpr hx
      | cons d dr =>
        rw [hdr] at h
        rw [List.getLast?_cons_cons] at h
        rw [← hdr] at h
        exact dropTrailingWs_last r c h

theorem dropTrailingWs_fix : ∀ (l : List Char),
    (∀ c, l.getLast? = some c → isPySpace c = false) → dropTrailingWs l = l
  | [], _ => rfl
  | x :: r, h => by
    rw [show dropTrailingWs (x :: r) =
        (if (dropTrailingWs r).isEmpty && isPySpace x then []
         else x :: dropTrailingWs r) from rfl]
    by_cases hr : r = []
    · subst hr
      have hx := h x (by simp)
      simp [dropTrailingWs, hx]
    · obtain ⟨y, yr, rfl⟩ := List.exists_cons_of_ne_nil hr
      have hfix : dropTrailingWs (y :: yr) = y :: yr := by
        apply dropTrailingWs_fix (y :: yr)
        intro c hc
        apply h c
        rw [List.getLast?_cons_cons]
        exact hc
      rw [hfix]
      simp

theorem noDouble_dropTrailing {l : List Char} (h : noDoubleWsList l = true) :
    noDoubleWsList (dropTrailingWs l) = true := by
  obtain ⟨b, hb1, -⟩ := dropTrailingWs_spec l
  exact noDouble_append_left _ b (by rw [← hb1]; exact h)

theorem dropTrailing_chars {l : List Char} {c : Char} (hc : c ∈ dropTrailingWs l) : c ∈ l := by
  obtain ⟨b, hb1, -⟩ := dropTrailingWs_spec l
  rw [hb1]
  exact List.mem_append.mpr (Or.inl hc)

theorem collapseWs_true_eq_false {l : List Char}
    (h : ∀ c rest, l = c :: rest → isPySpace c = false) :
    collapseWsAux l true = collapseWsAux l false := by
  cases l with
  | nil => rfl
  | cons c rest =>
    have hc := h c rest rfl
    rw [collapseWsAux, collapseWsAux, if_neg (by simp [hc]), if_neg (by simp [hc])]

theorem collapse_fix : ∀ l : List Char, noDoubleWsList l = true →
    (∀ c ∈ l, isPySpace c = true → c = ' ') → collapseWsAux l false = l
  | [], _, _ => rfl
  | x :: r, hnd, hsp => by
    rw [collapseWsAux]
    by_cases hx : isPySpace x = true
    · rw [if_pos hx]
      have hx2 : x = ' ' := hsp x (by simp) hx
      have hhead : ∀ c rest, r = c :: rest → isPySpace c = false := by
        intro c rest hr
        subst hr
        simp only [noDoubleWsList, Bool.and_eq_true] at hnd
        have h1 := hnd.1
        rw [hx] at h1
        simpa using h1
      rw [collapseWs_true_eq_false hhead,
        collapse_fix r (noDouble_tail hnd) (fun c hc hw => hsp c (by simp [hc]) hw), hx2]
      simp
    · rw [if_neg hx,
        collapse_fix r (noDouble_tail hnd) (fun c hc hw => hsp c (by simp [hc]) hw)]

theorem dropWhile_fix {l : List Char}
    (h : ∀ c rest, l = c :: rest → isPySpace c = false) :
    l.dropWhile isPySpace = l := by
  cases l with
  | nil => rfl
  | cons c rest => rw [List.dropWhile_cons, if_neg (by simp [h c rest rfl])]

theorem normalize_props (s : String) :
    noDoubleWsList (normalize_whitespace s).data = true ∧
    (∀ c rest, (normalize_whitespace s).data = c :: rest → isPySpace c = false) ∧
    (∀ c, (normalize_whitespace s).data.getLast? = some c → isPySpace c = false) ∧
    (∀ c ∈ (normalize_whitespace s).data, isPySpace c = true → c = ' ') := by
  have hd : (normalize_whitespace s).data
      = dropTrailingWs ((collapseWsAux s.data false).dropWhile isPySpace) := rfl
  rw [hd]
  refine ⟨?_, ?_, ?_, ?_⟩
  · exact noDouble_dropTrailing (noDouble_dropWhile (collapseWs_noDouble s.data false))
  · intro c rest hv
    obtain ⟨b, hb1, -⟩ :=
      dropTrailingWs_spec ((collapseWsAux s.data false).dropWhile isPySpace)
    rw [hv, List.cons_append] at hb1
    exact dropWhile_head_not hb1
  · intro c hc
    exact dropTrailingWs_last _ c hc
  · intro c hc hw
    have hu := dropTrailing_chars hc
    have ht : c ∈ collapseWsAux s.data false :=
      (List.dropWhile_sublist (p := isPySpace)).mem hu
    exact collapseWs_space s.data false c ht hw

theorem normalizeWs_idem (s : String) :
    normalize_whitespace (normalize_whitespace s) = normalize_whitespace s := by
  obtain ⟨hnd, hhead, hlast, hsp⟩ := normalize_props s
  have step1 : collapseWsAux (normalize_whitespace s).data false
      = (normalize_whitespace s).data := collapse_fix _ hnd hsp
  have step2 : ((normalize_whitespace s).data).dropWhile isPySpace
      = (normalize_whitespace s).data := dropWhile_fix hhead
  have step3 : dropTrailingWs (normalize_whitespace s).data
      = (normalize_whitespace s).data :=
    dropTrailingWs_fix _ (fun c hc => hlast c hc)
  show String.mk (stripList (collapseWsAux (normalize_whitespace s).data false))
      = normalize_whitespace s
  rw [step1]
  unfold stripList
  rw [step2, step3, mkData]

theorem bsGetText_plain {s : String}
    (h : ∀ c ∈ s.data, ¬c = '<' ∧ ¬c = '&') : bsGetText s = s := by
  unfold bsGetText
  rw [bsChunksAux_plain s.data [] h]
  by_cases hs : s.data = []
  · rw [if_pos ⟨rfl, hs⟩]
    cases s with
    | mk d =>
      have hd : d = [] := by simpa using hs
      subst hd
      rfl
  · rw [if_neg (by simp [hs])]
    simp only [List.reverse_nil, List.nil_append, List.map_cons, List.map_nil]
    rw [show joinSepSp [String.mk s.data] = String.mk s.data from rfl, mkData]

theorem normalize_chars {s : String} {c : Char}
    (hc : c ∈ (normalize_whitespace s).data) : c = ' ' ∨ c ∈ s.data := by
  have hd : (normalize_whitespace s).data
      = dropTrailingWs ((collapseWsAux s.data false).dropWhile isPySpace) := rfl
  rw [hd] at hc
  have hu := dropTrailing_chars hc
  have ht : c ∈ collapseWsAux s.data false :=
    (List.dropWhile_sublist (p := isPySpace)).mem hu
  exact collapseWs_chars s.data false c ht

/-- C5 counterexample to idempotence: `clean_text` decodes the entity
references of `&lt;b&gt;x&lt;/b&gt;` to `<b>x</b>`, and a second application
re-parses that output as markup and strips it to `x`. -/
theorem spec_c5_counterexample :
    clean_text (clean_text "&lt;b&gt;x&lt;/b&gt;") ≠ clean_text "&lt;b&gt;x&lt;/b&gt;" := by
  decide

/-- C5 amended: for every input the result of `clean_text` has no two
consecutive whitespace characters and no leading or trailing whitespace; it
is idempotent on every input containing neither `<` nor `&` (in general a
second application can strip markup or entities revealed by the first). -/
theorem spec_c5 (s : String) :
    noDoubleWs (clean_text s) = true ∧ noEdgeWs (clean_text s) = true ∧
    ((s.data.all fun c => !(c = '<') && !(c = '&')) = true →
      clean_text (clean_text s) = clean_text s) := by
  refine ⟨?_, ?_, ?_⟩
  · unfold clean_text noDoubleWs
    exact (normalize_props (bsGetText s)).1
  · obtain ⟨-, hhead, hlast, -⟩ := normalize_props (bsGetText s)
    unfold clean_text noEdgeWs
    simp only [Bool.and_eq_true]
    constructor
    · cases hv : (normalize_whitespace (bsGetText s)).data with
      | nil => rfl
      | cons c rest =>
        simp only [List.head?_cons]
        simp [hhead c rest hv]
    · cases hv : (normalize_whitespace (bsGetText s)).data.getLast? with
      | none => rfl
      | some c =>
        simp [hlast c hv]
  · intro hcl
    have hch : ∀ c ∈ s.data, ¬c = '<' ∧ ¬c = '&' := by
      intro c hc
      have h2 := List.all_eq_true.mp hcl c hc
      simp only [Bool.and_eq_true] at h2
      constructor
      · intro he
        rw [he] at h2
        exact absurd h2.1 (by decide)
      · intro he
        rw [he] at h2
        exact absurd h2.2 (by decide)
    have h1 : clean_text s = normalize_whitespace s := by
      unfold clean_text
      rw [bsGetText_plain hch]
    have hch2 : ∀ c ∈ (normalize_whitespace s).data, ¬c = '<' ∧ ¬c = '&' := by
      intro c hc
      rcases normalize_chars hc with rfl | hmem
      · exact ⟨by decide, by decide⟩
      · exact hch c hmem
    rw [h1]
    unfold clean_text
    rw [bsGetText_plain hch2]
    exact normalizeWs_idem s

theorem spec_c5_witness :
    noDoubleWs (clean_text "  Hello   world  ") = true ∧
    noEdgeWs (clean_text "  Hello   world  ") = true ∧
    clean_text (clean_text "  Hello   world  ") = clean_text "  Hello   world  " :=
  ⟨(spec_c5 _).1, (spec_c5 _).2.1, (spec_c5 _).2.2 (by decide)⟩
